import Mathlib

/-!
Verification development for the filehound library (src/src/filehound.ts).

The TypeScript source is shallowly embedded: the fluent builder state is the
`FileHound` structure, the filesystem seen by a walk is an `FSTree`, and the
recursive `search` routine is the mutual `FileHound.search` / `FileHound.searchList`
pair below.  Helper modules of the repository that are not in src/
(`./functions`, `./arrays`, `./files`) are modelled from the specification and
carry a doc comment saying so.  External collaborators (lodash's `uniq`,
node's `path.normalize`) are modelled from their documented behaviour.
-/

/-- Abstraction of a `file-js` File value, restricted to the accessors that
filehound.ts consults: `getName`, `getDepthSync`, `isDirectorySync`,
`isHiddenSync`, `getPathExtension`. -/
structure Entry where
  name : String
  depth : Nat
  isDirectory : Bool
  isHidden : Bool
  pathExtension : String
deriving DecidableEq, Repr

mutual
/-- A filesystem subtree: one node per path; `children` is what
`getFiles()` / `getFilesSync()` returns for the node. -/
inductive FSTree where
  | node (entry : Entry) (children : FSForest)
deriving Repr

/-- A directory listing (list of subtrees). -/
inductive FSForest where
  | nil
  | cons (head : FSTree) (tail : FSForest)
deriving Repr
end

def FSTree.entry : FSTree → Entry
  | .node e _ => e

def FSTree.children : FSTree → FSForest
  | .node _ c => c

def FSForest.toList : FSForest → List FSTree
  | .nil => []
  | .cons t ts => t :: ts.toList

/-- The entries a directory listing of `t` yields. -/
def FSTree.childEntries (t : FSTree) : List Entry :=
  t.children.toList.map FSTree.entry

/-- One element of a variadic argument list: a plain string or an array of
strings (filehound methods accept both). -/
inductive PathArg where
  | single (s : String)
  | many (l : List String)

/-- Modelled from the spec: `from` (module `./arrays`, not under src/) —
§4.2: "given a variadic/nested list of path strings, flattens it". -/
def fromArgs (args : List PathArg) : List String :=
  (args.map (fun a => match a with | .single s => [s] | .many l => l)).flatten

/-- lodash `_.uniq` (external collaborator): removes duplicates by exact
equality keeping the first occurrence. -/
def uniqAux (seen : List String) : List String → List String
  | [] => []
  | x :: xs => if x ∈ seen then uniqAux seen xs else x :: uniqAux (x :: seen) xs

/-- lodash `_.uniq`. -/
def uniq (l : List String) : List String := uniqAux [] l

/-- Split a character list at `/` separators (the segment view node's
`path.posix.normalize` works on). -/
def splitSlashAux (cur : List Char) : List Char → List (List Char)
  | [] => [cur.reverse]
  | c :: rest =>
    if c = '/' then cur.reverse :: splitSlashAux [] rest
    else splitSlashAux (c :: cur) rest

/-- Segment processing of node's `path.posix.normalize` (external
collaborator): drops `.` and empty segments, resolves `..` against the
stack (absolute paths drop `..` at the root). -/
def normSegs (isAbs : Bool) (stack : List (List Char)) :
    List (List Char) → List (List Char)
  | [] => stack.reverse
  | seg :: rest =>
    if seg = [] ∨ seg = ['.'] then normSegs isAbs stack rest
    else if seg = ['.', '.'] then
      match stack with
      | [] => if isAbs then normSegs isAbs [] rest else normSegs isAbs [['.', '.']] rest
      | top :: stk =>
        if top = ['.', '.'] then normSegs isAbs (seg :: stack) rest
        else normSegs isAbs stk rest
    else normSegs isAbs (seg :: stack) rest

/-- Interleave `/` separators between segments. -/
def joinSegs : List (List Char) → List Char
  | [] => []
  | [s] => s
  | s :: rest => s ++ '/' :: joinSegs rest

/-- node `path.posix.normalize` (external collaborator): resolves `.` and
`..` segments, collapses separators, preserves a trailing separator. -/
def normalizePath (p : String) : String :=
  match h : p.data with
  | [] => "."
  | c :: rest =>
    let isAbs := c = '/'
    let hasTrail := (c :: rest).getLast (by simp) = '/'
    let body := joinSegs (normSegs isAbs [] (splitSlashAux [] (c :: rest)))
    if isAbs then
      if hasTrail ∧ body ≠ [] then String.mk ('/' :: body ++ ['/'])
      else String.mk ('/' :: body)
    else
      if body = [] then (if hasTrail then "./" else ".")
      else if hasTrail then String.mk (body ++ ['/']) else String.mk body

/-- cleanExtension (filehound.ts lines 31-36): strips one leading dot
(`_.startsWith(ext, '.')` then `ext.slice(1)`). -/
def cleanExtension (ext : String) : String :=
  match ext.data with
  | '.' :: rest => String.mk rest
  | _ => ext

/-- The builder state of a FileHound instance (fields of the class,
filehound.ts lines 40-47; `isMatch` is re-derived by `initFilters` from
`filters`/`negateFilters` at search start and is not stored separately). -/
structure FileHound where
  filters : List (Entry → Bool)
  searchPaths : List String
  ignoreDirs : Bool
  sync : Bool
  directoriesOnly : Bool
  negateFilters : Bool
  maxDepth : Option Nat

/-- Constructor (filehound.ts lines 49-59); `process.cwd()` is passed in
explicitly as `cwd`.  `negateFilters`/`maxDepth` start undefined, i.e.
false/none. -/
def FileHound.create (cwd : String) : FileHound :=
  { filters := [], searchPaths := [cwd], ignoreDirs := false, sync := false,
    directoriesOnly := false, negateFilters := false, maxDepth := none }

/-- addFilter (lines 186-189). -/
def FileHound.addFilter (fh : FileHound) (f : Entry → Bool) : FileHound :=
  { fh with filters := fh.filters ++ [f] }

/-- paths (lines 209-212): `this.searchPaths = _.uniq(from(args)).map(path.normalize)`. -/
def FileHound.paths (fh : FileHound) (args : List PathArg) : FileHound :=
  { fh with searchPaths := (uniq (fromArgs args)).map normalizePath }

/-- The predicate registered by ext (lines 294-300):
`from(args).map(cleanExtension)` then `_.includes(extensions, file.getPathExtension())`. -/
def extPredicate (args : List PathArg) (file : Entry) : Bool :=
  ((fromArgs args).map cleanExtension).any (fun x => x = file.pathExtension)

/-- ext (lines 294-300). -/
def FileHound.ext (fh : FileHound) (args : List PathArg) : FileHound :=
  fh.addFilter (extPredicate args)

/-- not (lines 398-401). -/
def FileHound.not (fh : FileHound) : FileHound :=
  { fh with negateFilters := true }

/-- ignoreHiddenDirectories (lines 441-444). -/
def FileHound.ignoreHiddenDirectories (fh : FileHound) : FileHound :=
  { fh with ignoreDirs := true }

/-- directory (lines 463-466). -/
def FileHound.directory (fh : FileHound) : FileHound :=
  { fh with directoriesOnly := true }

/-- depth (lines 507-510). -/
def FileHound.depth (fh : FileHound) (d : Nat) : FileHound :=
  { fh with maxDepth := some d }

/-- Modelled from the spec: `negate` (module `./functions`, not under src/) —
logical negation of a predicate (§4.1: "negates if negateAll"). -/
def negate (f : Entry → Bool) : Entry → Bool := fun e => !(f e)

/-- Modelled from the spec: `compose` (module `./functions`, not under src/) —
§4.1: "evaluate computes AND of all predicates (empty set implies true)",
applied in insertion order. -/
def compose (fns : List (Entry → Bool)) : Entry → Bool :=
  fun e => fns.all (fun f => f e)

/-- newMatcher (lines 598-604). -/
def FileHound.newMatcher (fh : FileHound) : Entry → Bool :=
  if fh.negateFilters then negate (compose fh.filters) else compose fh.filters

/-- atMaxDepth (lines 587-590): relative depth (JS number subtraction,
hence integers) strictly above `maxDepth`, only when `maxDepth` is set. -/
def atMaxDepth (fh : FileHound) (root dir : Entry) : Bool :=
  match fh.maxDepth with
  | none => false
  | some m => decide ((dir.depth : Int) - (root.depth : Int) > (m : Int))

/-- shouldFilterDirectory (lines 592-596). -/
def shouldFilterDirectory (fh : FileHound) (root dir : Entry) : Bool :=
  atMaxDepth fh root dir || (fh.ignoreDirs && dir.isHidden)

/-- What one recursive `search` call produces.  `files` and `tracked` are
the return value and the `trackedPaths` pushes of the source; `listed` and
`evaluated` are ghost instrumentation (which directories had their contents
listed, and which entries were passed to `isMatch`) used only to state
traversal properties — they influence nothing. -/
structure WalkOut where
  files : List Entry
  tracked : List Entry
  listed : List FSTree
  evaluated : List Entry

mutual
/-- search (filehound.ts lines 633-655).  The `trackedPaths` mutation is
returned in `tracked`; the listing obtained from `getFiles`/`getFilesSync`
is the node's `children`. -/
def FileHound.search (fh : FileHound) (m : Entry → Bool) (root : Entry) : FSTree → WalkOut
  | .node e children =>
    if shouldFilterDirectory fh root e then ⟨[], [], [], []⟩
    else
      let p := FileHound.searchList fh m root children
      ⟨p.files.filter m, p.tracked, FSTree.node e children :: p.listed, p.files ++ p.evaluated⟩

/-- The `.map(...).reduce(flatten, [])` body of search over one listing:
a directory child is pushed onto `trackedPaths` when it would not itself be
filtered, then recursed into; any other child is a match candidate. -/
def FileHound.searchList (fh : FileHound) (m : Entry → Bool) (root : Entry) : FSForest → WalkOut
  | .nil => ⟨[], [], [], []⟩
  | .cons t ts =>
    let rest := FileHound.searchList fh m root ts
    if t.entry.isDirectory then
      let pushed := if shouldFilterDirectory fh root t.entry then ([] : List Entry) else [t.entry]
      let p := FileHound.search fh m root t
      ⟨p.files ++ rest.files, (pushed ++ p.tracked) ++ rest.tracked,
        p.listed ++ rest.listed, p.evaluated ++ rest.evaluated⟩
    else
      ⟨t.entry :: rest.files, rest.tracked, rest.listed, rest.evaluated⟩
end

/-- searchSync (lines 610-616), as a pure result function; the
`this.sync = true` mutation is modelled by `applyOp` below. -/
def FileHound.searchSync (fh : FileHound) (t : FSTree) : List Entry :=
  let m := fh.newMatcher
  let r := fh.search m t.entry t
  if fh.directoriesOnly then r.tracked.filter m else r.files

/-- Modelled from the spec: `reducePaths` (module `./files`, not under
src/), applied by getSearchPaths when no maxDepth is set.  The spec (§3)
states that "no cross-root de-duplication is performed (if two roots
overlap, matches are duplicated)" and §4.2 gives the output as the ordered
root list, so it is modelled as preserving the root list. -/
def reducePaths (paths : List String) : List String := paths

/-- Modelled from the spec: `copy` (module `./arrays`, not under src/) —
returns a copy of the array, value-identical. -/
def copy (paths : List String) : List String := paths

/-- getSearchPaths (lines 579-585). -/
def FileHound.getSearchPaths (fh : FileHound) : List String :=
  copy (if fh.maxDepth.isSome then fh.searchPaths else reducePaths fh.searchPaths)

/-- findSync (lines 570-577): searchSync per root, flattened, then
`getName` per file.  `fs` maps a root path to its subtree.  (The source
`reduce(flatten)` throws on an empty root list; theorems about findSync
therefore assume a non-empty root list.) -/
def FileHound.findSync (fh : FileHound) (fs : String → FSTree) : List String :=
  (((fh.getSearchPaths).map (fun p => fh.searchSync (fs p))).flatten).map Entry.name

/-- The observable notifications a `find` call can emit. -/
inductive Ev where
  | matchEv (name : String)
  | errorEv (e : String)
  | endEv
deriving DecidableEq, Repr

deriving instance DecidableEq for Except

/-- searchAsync (lines 618-631), outcome only: the per-root walk either
rejects (the root cannot be listed) or fulfils with the same value
searchSync computes; the match emissions of its `then` callback are placed
on the timeline by `runSchedule`. -/
def FileHound.searchAsync (fh : FileHound) (r : Except String FSTree) :
    Except String (List Entry) :=
  match r with
  | .error e => .error e
  | .ok t => .ok (fh.searchSync t)

/-- The notifications the `then` callback of one root's searchAsync emits
when that root's walk completes (lines 623-630): one `match` per returned
file, none in directoriesOnly mode, none on rejection. -/
def evOf (fh : FileHound) (o : Except String (List Entry)) : List Ev :=
  match o with
  | .error _ => []
  | .ok files => if fh.directoriesOnly then [] else files.map (fun f => Ev.matchEv f.name)

/-- The event timeline of the concurrent walks.  `order` is the completion
schedule: the indices of the per-root promises in the order in which they
settle.  A root's `match` notifications fire when it completes; the first
rejection settles `Promise.all`, so the `catch`/`finally` of find (lines
547-551) emit `error` then `end` at that instant, while walks completing
later still emit their own `match` notifications (they are not cancelled);
rejections after the first produce no notification. -/
def runSchedule (fh : FileHound) (outs : List (Except String (List Entry))) :
    List Nat → List Ev × Option String
  | [] => ([], none)
  | i :: rest =>
    match outs.getD i (Except.ok []) with
    | .error e =>
      (Ev.errorEv e :: Ev.endEv ::
        (rest.map (fun j => evOf fh (outs.getD j (Except.ok [])))).flatten, some e)
    | .ok files =>
      let p := runSchedule fh outs rest
      (evOf fh (.ok files) ++ p.1, p.2)

/-- The per-root settled values of `Promise.map(paths, this.searchAsync)`
(line 542), indexed in root-declaration order. -/
def FileHound.findOutcomes (fh : FileHound) (fs : String → Except String FSTree) :
    List (Except String (List Entry)) :=
  (fh.getSearchPaths).map (fun p => fh.searchAsync (fs p))

/-- find (lines 538-552) over the filesystem oracle `fs` and a completion
schedule `order` (intended to enumerate each root index exactly once).
Returns the notifications in emission order and the settled value of the
returned promise: on success `Promise.all` fulfils with the per-root lists
in root-declaration order, flattened and mapped to names, and `end` is the
final event; on failure the promise rejects with the first error to
settle. -/
def FileHound.find (fh : FileHound) (fs : String → Except String FSTree)
    (order : List Nat) : List Ev × Except String (List String) :=
  let outs := fh.findOutcomes fs
  let r := runSchedule fh outs order
  match r.2 with
  | some e => (r.1, .error e)
  | none =>
    (r.1 ++ [Ev.endEv],
      .ok (((outs.map (fun o => o.toOption.getD [])).flatten).map Entry.name))

/-- The state-changing calls available on a FileHound instance.  The
filter-registering conveniences (modified/accessed/changed/discard/ext/
size/isEmpty/glob/match/socket/ignoreHiddenFiles) all factor through
`addFilter` and are represented by it. -/
inductive Op where
  | addFilter (f : Entry → Bool)
  | paths (args : List PathArg)
  | notOp
  | ignoreHiddenDirectories
  | directory
  | depth (d : Nat)
  | find
  | findSync

/-- State effect of one call.  `find` touches no builder field; `findSync`
runs `searchSync` once per search path and each run sets `this.sync = true`
(lines 610-611), so the flag is set exactly when the root list is
non-empty. -/
def applyOp (fh : FileHound) : Op → FileHound
  | .addFilter f => fh.addFilter f
  | .paths args => fh.paths args
  | .notOp => fh.not
  | .ignoreHiddenDirectories => fh.ignoreHiddenDirectories
  | .directory => fh.directory
  | .depth d => fh.depth d
  | .find => fh
  | .findSync => { fh with sync := fh.sync || !(fh.getSearchPaths).isEmpty }

/-- Folding a call sequence over the instance state. -/
def applyOps (fh : FileHound) (ops : List Op) : FileHound :=
  ops.foldl applyOp fh

/-- Which directory-listing primitive `search` binds (lines 640-642):
`getFilesSync` when `this.sync` is set, `getFiles` otherwise. -/
inductive Getter where
  | syncGetter
  | asyncGetter
deriving DecidableEq, Repr

/-- The listing choice of `search` as a function of the instance state. -/
def chosenGetter (fh : FileHound) : Getter :=
  if fh.sync then .syncGetter else .asyncGetter

/-! ### Shared concrete fixtures used by witnesses and counterexamples -/

def entA : Entry := ⟨"/a", 1, true, false, ""⟩

def entAF : Entry := ⟨"/a/f.txt", 2, false, false, "txt"⟩

def entAD : Entry := ⟨"/a/d", 2, true, false, ""⟩

def entADG : Entry := ⟨"/a/d/g.txt", 3, false, false, "txt"⟩

def treeAD : FSTree := .node entAD (.cons (.node entADG .nil) .nil)

def treeA : FSTree := .node entA (.cons (.node entAF .nil) (.cons treeAD .nil))

def entB : Entry := ⟨"/b", 1, true, false, ""⟩

def entBF : Entry := ⟨"/b/g.log", 2, false, false, "log"⟩

def treeB : FSTree := .node entB (.cons (.node entBF .nil) .nil)

def entAB : Entry := ⟨"/a/b", 2, true, false, ""⟩

def entABF : Entry := ⟨"/a/b/f.txt", 3, false, false, "txt"⟩

def treeAB : FSTree := .node entAB (.cons (.node entABF .nil) .nil)

def treeOverlapA : FSTree := .node entA (.cons treeAB .nil)

/-! ### Helper lemmas -/

theorem compose_eq_foldr (fns : List (Entry → Bool)) (e : Entry) :
    compose fns e = fns.foldr (fun f acc => f e && acc) true := by
  induction fns with
  | nil => rfl
  | cons f fs ih =>
    simp only [compose, List.all_cons, List.foldr_cons]
    simp only [compose] at ih
    rw [ih]

theorem cleanExtension_no_dot (e : String) (h : e.data.head? ≠ some '.') :
    cleanExtension e = e := by
  obtain ⟨d⟩ := e
  match d, h with
  | [], _ => rfl
  | c :: cs, h =>
    have hc : c ≠ '.' := by simpa using h
    unfold cleanExtension
    split
    · next rest heq =>
      simp only [] at heq
      injection heq with h1 h2
      exact absurd h1 hc
    · rfl

theorem uniqAux_mem (l : List String) :
    ∀ (seen : List String) (x : String),
      x ∈ uniqAux seen l ↔ (x ∈ l ∧ x ∉ seen) := by
  induction l with
  | nil => intro seen x; simp [uniqAux]
  | cons y ys ih =>
    intro seen x
    unfold uniqAux
    by_cases hy : y ∈ seen
    · rw [if_pos hy, ih]
      constructor
      · rintro ⟨hx, hs⟩; exact ⟨List.mem_cons_of_mem _ hx, hs⟩
      · rintro ⟨hx, hs⟩
        rcases List.mem_cons.mp hx with rfl | hx
        · exact absurd hy hs
        · exact ⟨hx, hs⟩
    · rw [if_neg hy]
      constructor
      · intro hx
        rcases List.mem_cons.mp hx with rfl | hx
        · exact ⟨List.mem_cons_self _ _, hy⟩
        · rcases (ih _ _).mp hx with ⟨h1, h2⟩
          exact ⟨List.mem_cons_of_mem _ h1,
            fun hs => h2 (List.mem_cons_of_mem _ hs)⟩
      · rintro ⟨hx, hs⟩
        by_cases hxy : x = y
        · exact hxy ▸ List.mem_cons_self _ _
        · rcases List.mem_cons.mp hx with rfl | hx
          · exact absurd rfl hxy
          · exact List.mem_cons_of_mem _ ((ih _ _).mpr
              ⟨hx, fun hm => (List.mem_cons.mp hm).elim hxy hs⟩)

theorem uniqAux_nodup (l : List String) :
    ∀ seen : List String, (uniqAux seen l).Nodup := by
  induction l with
  | nil => intro seen; simp [uniqAux]
  | cons y ys ih =>
    intro seen
    unfold uniqAux
    by_cases hy : y ∈ seen
    · rw [if_pos hy]; exact ih seen
    · rw [if_neg hy]
      refine List.nodup_cons.mpr ⟨fun hmem => ?_, ih _⟩
      exact ((uniqAux_mem ys _ y).mp hmem).2 (List.mem_cons_self _ _)

theorem uniqAux_sublist (l : List String) :
    ∀ seen : List String, (uniqAux seen l).Sublist l := by
  induction l with
  | nil => intro seen; simp [uniqAux]
  | cons y ys ih =>
    intro seen
    unfold uniqAux
    by_cases hy : y ∈ seen
    · rw [if_pos hy]; exact (ih seen).cons y
    · rw [if_neg hy]; exact (ih _).cons₂ y

/-! ### C1 -/

/-- C1: for every finalized predicate set and every entry, the matcher built
by `newMatcher` is the AND of all added predicates in insertion order (empty
list evaluates to true) XOR-ed with the `negateFilters` flag set by `not()`;
with the flag set, an entry matches iff at least one predicate rejects it. -/
theorem fileHound_evaluate_and_xor_negate (fh : FileHound) (e : Entry) :
    fh.newMatcher e
      = ((fh.filters.foldr (fun f acc => f e && acc) true).xor fh.negateFilters)
    ∧ (fh.negateFilters = true →
        (fh.newMatcher e = true ↔ ∃ f ∈ fh.filters, f e = false)) := by
  constructor
  · unfold FileHound.newMatcher
    by_cases hn : fh.negateFilters = true
    · rw [if_pos hn, hn, Bool.xor_true, ← compose_eq_foldr]; rfl
    · have hn' : fh.negateFilters = false := by simpa using hn
      rw [if_neg hn, hn', Bool.xor_false, compose_eq_foldr]
  · intro hn
    unfold FileHound.newMatcher
    rw [if_pos hn]
    have hiff : compose fh.filters e = false ↔ ∃ f ∈ fh.filters, f e = false := by
      unfold compose
      rw [List.all_eq_false]
      constructor
      · rintro ⟨x, hx, hpx⟩; exact ⟨x, hx, by simpa using hpx⟩
      · rintro ⟨x, hx, hpx⟩; exact ⟨x, hx, by simp [hpx]⟩
    constructor
    · intro hm; exact hiff.mp (by simpa [negate] using hm)
    · intro hex; simp [negate, hiff.mpr hex]

theorem fileHound_evaluate_and_xor_negate_witness :
    (((FileHound.create "/c").not.addFilter (fun e => e.isDirectory)).newMatcher
        ⟨"/x", 1, false, false, ""⟩ = true
      ↔ ∃ f ∈ ((FileHound.create "/c").not.addFilter (fun e => e.isDirectory)).filters,
          f ⟨"/x", 1, false, false, ""⟩ = false) :=
  (fileHound_evaluate_and_xor_negate _ _).2 rfl

/-! ### C10 -/

/-- C10: for every extension string `e` (no leading dot — a leading dot is
the separator, which `cleanExtension` strips), the filter added by
`ext('.' + e)` is the same function as the filter added by `ext(e)`: a
single leading dot is stripped from each argument, and a file matches iff
its path extension is a member of the cleaned extension list. -/
theorem fileHound_ext_dot_equivalence (e : String) (h : e.data.head? ≠ some '.') :
    cleanExtension ("." ++ e) = e
    ∧ (∀ file : Entry,
        extPredicate [PathArg.single ("." ++ e)] file
          = extPredicate [PathArg.single e] file)
    ∧ (∀ (args : List PathArg) (file : Entry),
        extPredicate args file = true ↔
          file.pathExtension ∈ (fromArgs args).map cleanExtension) := by
  have hdot : cleanExtension ("." ++ e) = e := by
    obtain ⟨d⟩ := e
    rfl
  refine ⟨hdot, ?_, ?_⟩
  · intro file
    show ([cleanExtension ("." ++ e)].any (fun x => x = file.pathExtension))
        = ([cleanExtension e].any (fun x => x = file.pathExtension))
    rw [hdot, cleanExtension_no_dot e h]
  · intro args file
    unfold extPredicate
    rw [List.any_eq_true]
    constructor
    · rintro ⟨x, hx, hpx⟩
      have hx' : x = file.pathExtension := by simpa using hpx
      exact hx' ▸ hx
    · intro hm
      exact ⟨file.pathExtension, hm, by simp⟩

theorem fileHound_ext_dot_equivalence_witness :
    cleanExtension ("." ++ "txt") = "txt"
    ∧ extPredicate [PathArg.single ("." ++ "txt")] entAF
        = extPredicate [PathArg.single "txt"] entAF :=
  ⟨(fileHound_ext_dot_equivalence "txt" (by decide)).1,
   (fileHound_ext_dot_equivalence "txt" (by decide)).2.1 entAF⟩

/-! ### C8 -/

/-- C8 counterexample: `paths` removes duplicates by exact string equality
BEFORE normalization (`_.uniq(from(args)).map(path.normalize)`), so the
distinct spellings "/tmp" and "/tmp/x/.." both survive dedup and both
normalize to "/tmp": the stored root list holds an exact-string duplicate,
contradicting dedup-after-normalization. -/
theorem fileHound_paths_dedup_counterexample :
    ((FileHound.create "/cwd").paths
        [PathArg.single "/tmp", PathArg.single "/tmp/x/.."]).searchPaths
      = ["/tmp", "/tmp"]
    ∧ ¬ ((FileHound.create "/cwd").paths
        [PathArg.single "/tmp", PathArg.single "/tmp/x/.."]).searchPaths.Nodup := by
  decide

/-- C8 (amended): the variadic/nested argument list is flattened, duplicates
are removed by exact string equality BEFORE normalization (keeping
first-occurrence order: the kept list is a duplicate-free sublist of the
flattened input containing every input string), and each survivor is then
canonicalized with `path.normalize`. -/
theorem fileHound_paths_flatten_dedup_normalize (fh : FileHound) (args : List PathArg) :
    (fh.paths args).searchPaths = (uniq (fromArgs args)).map normalizePath
    ∧ (uniq (fromArgs args)).Nodup
    ∧ (uniq (fromArgs args)).Sublist (fromArgs args)
    ∧ (∀ x ∈ fromArgs args, x ∈ uniq (fromArgs args)) := by
  refine ⟨rfl, uniqAux_nodup _ _, uniqAux_sublist _ _, ?_⟩
  intro x hx
  exact (uniqAux_mem _ _ _).mpr ⟨hx, by simp⟩

theorem fileHound_paths_flatten_dedup_normalize_witness :
    ((FileHound.create "/c").paths [PathArg.many ["/a", "/b", "/a"]]).searchPaths
      = (uniq (fromArgs [PathArg.many ["/a", "/b", "/a"]])).map normalizePath
    ∧ "/a" ∈ uniq (fromArgs [PathArg.many ["/a", "/b", "/a"]]) :=
  ⟨(fileHound_paths_flatten_dedup_normalize (FileHound.create "/c")
      [PathArg.many ["/a", "/b", "/a"]]).1,
   (fileHound_paths_flatten_dedup_normalize (FileHound.create "/c")
      [PathArg.many ["/a", "/b", "/a"]]).2.2.2 "/a" (by decide)⟩

/-! ### C9 -/

theorem applyOp_sync_mono (fh : FileHound) (op : Op) (h : fh.sync = true) :
    (applyOp fh op).sync = true := by
  cases op <;>
    simp [applyOp, FileHound.addFilter, FileHound.paths, FileHound.not,
      FileHound.ignoreHiddenDirectories, FileHound.directory, FileHound.depth, h]

theorem applyOps_sync_mono (ops : List Op) :
    ∀ fh : FileHound, fh.sync = true → (applyOps fh ops).sync = true := by
  induction ops with
  | nil => intro fh h; simpa [applyOps] using h
  | cons op rest ih =>
    intro fh h
    exact ih _ (applyOp_sync_mono fh op h)

/-- C9: once findSync has run (over a non-empty root list — an empty list
would throw in `reduce`), the instance's `sync` flag is set and no later
call clears it, so every later `search` on the instance — including one
started by a subsequent `find` — binds the synchronous listing
(`getFilesSync`) instead of the asynchronous one. -/
theorem fileHound_findSync_sets_sync_forever (fh : FileHound)
    (h : fh.getSearchPaths ≠ []) (ops : List Op) :
    (applyOps (applyOp fh Op.findSync) ops).sync = true
    ∧ chosenGetter (applyOps (applyOp fh Op.findSync) ops) = Getter.syncGetter := by
  have hne : (fh.getSearchPaths).isEmpty = false := by
    rw [← Bool.not_eq_true, List.isEmpty_iff]; exact h
  have h1 : (applyOp fh Op.findSync).sync = true := by
    simp [applyOp, hne]
  have h2 := applyOps_sync_mono ops _ h1
  exact ⟨h2, by simp [chosenGetter, h2]⟩

theorem fileHound_findSync_sets_sync_forever_witness :
    (applyOps (applyOp (FileHound.create "/cwd") Op.findSync) [Op.find]).sync = true
    ∧ chosenGetter (applyOps (applyOp (FileHound.create "/cwd") Op.findSync) [Op.find])
        = Getter.syncGetter :=
  fileHound_findSync_sets_sync_forever _ (by decide) _

/-! ### C5 -/

/-- C5: the search performs no cross-root de-duplication: `findSync` is the
concatenation of one independently computed result list per root, in root
order, and each name occurs in the final result once per root walk that
produced it (the count over the result is the sum of the per-root counts).
`reducePaths` is modelled from the spec (see its doc comment). -/
theorem fileHound_no_cross_root_dedup (fh : FileHound) (fs : String → FSTree)
    (h : fh.getSearchPaths ≠ []) :
    fh.findSync fs
      = ((fh.getSearchPaths).map (fun p => (fh.searchSync (fs p)).map Entry.name)).flatten
    ∧ ∀ s : String,
        (fh.findSync fs).count s
          = ((fh.getSearchPaths).map
              (fun p => ((fh.searchSync (fs p)).map Entry.name).count s)).sum := by
  have h1 : fh.findSync fs
      = ((fh.getSearchPaths).map (fun p => (fh.searchSync (fs p)).map Entry.name)).flatten := by
    unfold FileHound.findSync
    rw [List.map_flatten, List.map_map]
    rfl
  refine ⟨h1, fun s => ?_⟩
  rw [h1, List.count_flatten, List.map_map]
  rfl

theorem fileHound_no_cross_root_dedup_witness :
    (((FileHound.create "/c").paths [PathArg.many ["/a", "/a/b"]]).findSync
        (fun p => if p = "/a" then treeOverlapA else treeAB)).count "/a/b/f.txt"
      = ((((FileHound.create "/c").paths [PathArg.many ["/a", "/a/b"]]).getSearchPaths).map
          (fun p => ((((FileHound.create "/c").paths [PathArg.many ["/a", "/a/b"]]).searchSync
              ((fun p => if p = "/a" then treeOverlapA else treeAB) p)).map Entry.name).count
                "/a/b/f.txt")).sum
    ∧ (((FileHound.create "/c").paths [PathArg.many ["/a", "/a/b"]]).findSync
        (fun p => if p = "/a" then treeOverlapA else treeAB)).count "/a/b/f.txt" = 2 :=
  ⟨(fileHound_no_cross_root_dedup _ _ (by decide)).2 "/a/b/f.txt", by decide⟩

/-! ### Walk lemmas -/

theorem search_pruned (fh : FileHound) (mm : Entry → Bool) (root : Entry) :
    ∀ t : FSTree, shouldFilterDirectory fh root t.entry = true →
      fh.search mm root t = ⟨[], [], [], []⟩
  | .node e ch => by
    intro hp
    simp only [FSTree.entry] at hp
    simp [FileHound.search, hp]

mutual
theorem search_tracked_spec (fh : FileHound) (mm : Entry → Bool) (root : Entry) :
    ∀ t : FSTree, ∀ x ∈ (fh.search mm root t).tracked,
      x.isDirectory = true ∧ shouldFilterDirectory fh root x = false
  | .node e ch => by
    intro x hx
    by_cases hp : shouldFilterDirectory fh root e = true
    · simp [FileHound.search, hp] at hx
    · simp [FileHound.search, hp] at hx
      exact searchList_tracked_spec fh mm root ch x hx

theorem searchList_tracked_spec (fh : FileHound) (mm : Entry → Bool) (root : Entry) :
    ∀ f : FSForest, ∀ x ∈ (fh.searchList mm root f).tracked,
      x.isDirectory = true ∧ shouldFilterDirectory fh root x = false
  | .nil => by
    intro x hx
    simp [FileHound.searchList] at hx
  | .cons t ts => by
    intro x hx
    by_cases hd : t.entry.isDirectory = true
    · by_cases hp : shouldFilterDirectory fh root t.entry = true
      · simp [FileHound.searchList, hd, hp] at hx
        rcases hx with hx | hx
        · exact search_tracked_spec fh mm root t x hx
        · exact searchList_tracked_spec fh mm root ts x hx
      · simp [FileHound.searchList, hd, hp] at hx
        rcases hx with rfl | hx | hx
        · exact ⟨hd, by simpa using hp⟩
        · exact search_tracked_spec fh mm root t x hx
        · exact searchList_tracked_spec fh mm root ts x hx
    · simp [FileHound.searchList, hd] at hx
      exact searchList_tracked_spec fh mm root ts x hx
end

theorem search_files_sub_evaluated (fh : FileHound) (mm : Entry → Bool) (root : Entry) :
    ∀ t : FSTree, ∀ x ∈ (fh.search mm root t).files, x ∈ (fh.search mm root t).evaluated
  | .node e ch => by
    intro x hx
    by_cases hp : shouldFilterDirectory fh root e = true
    · simp [FileHound.search, hp] at hx
    · simp [FileHound.search, hp] at hx ⊢
      exact Or.inl hx.1

mutual
theorem search_listed_spec (fh : FileHound) (mm : Entry → Bool) (root : Entry) :
    ∀ t : FSTree, ∀ u ∈ (fh.search mm root t).listed,
      shouldFilterDirectory fh root u.entry = false
  | .node e ch => by
    intro u hu
    by_cases hp : shouldFilterDirectory fh root e = true
    · simp [FileHound.search, hp] at hu
    · simp [FileHound.search, hp] at hu
      rcases hu with rfl | hu
      · simpa [FSTree.entry] using hp
      · exact searchList_listed_spec fh mm root ch u hu

theorem searchList_listed_spec (fh : FileHound) (mm : Entry → Bool) (root : Entry) :
    ∀ f : FSForest, ∀ u ∈ (fh.searchList mm root f).listed,
      shouldFilterDirectory fh root u.entry = false
  | .nil => by
    intro u hu
    simp [FileHound.searchList] at hu
  | .cons t ts => by
    intro u hu
    by_cases hd : t.entry.isDirectory = true
    · simp [FileHound.searchList, hd] at hu
      rcases hu with hu | hu
      · exact search_listed_spec fh mm root t u hu
      · exact searchList_listed_spec fh mm root ts u hu
    · simp [FileHound.searchList, hd] at hu
      exact searchList_listed_spec fh mm root ts u hu
end

mutual
theorem search_evaluated_spec (fh : FileHound) (mm : Entry → Bool) (root : Entry) :
    ∀ t : FSTree, ∀ x ∈ (fh.search mm root t).evaluated,
      ∃ u ∈ (fh.search mm root t).listed, x ∈ u.childEntries
  | .node e ch => by
    intro x hx
    by_cases hp : shouldFilterDirectory fh root e = true
    · simp [FileHound.search, hp] at hx
    · have hE : (fh.search mm root (FSTree.node e ch)).evaluated
          = (fh.searchList mm root ch).files ++ (fh.searchList mm root ch).evaluated := by
        simp [FileHound.search, hp]
      have hL : (fh.search mm root (FSTree.node e ch)).listed
          = FSTree.node e ch :: (fh.searchList mm root ch).listed := by
        simp [FileHound.search, hp]
      rw [hE] at hx
      rw [hL]
      rcases List.mem_append.mp hx with hx | hx
      · rcases searchList_files_spec fh mm root ch x hx with hce | ⟨u, hu, hx2⟩
        · exact ⟨FSTree.node e ch, List.mem_cons_self _ _, hce⟩
        · exact ⟨u, List.mem_cons_of_mem _ hu, hx2⟩
      · rcases searchList_evaluated_spec fh mm root ch x hx with ⟨u, hu, hx2⟩
        exact ⟨u, List.mem_cons_of_mem _ hu, hx2⟩

theorem searchList_files_spec (fh : FileHound) (mm : Entry → Bool) (root : Entry) :
    ∀ f : FSForest, ∀ x ∈ (fh.searchList mm root f).files,
      x ∈ f.toList.map FSTree.entry
      ∨ ∃ u ∈ (fh.searchList mm root f).listed, x ∈ u.childEntries
  | .nil => by
    intro x hx
    simp [FileHound.searchList] at hx
  | .cons t ts => by
    intro x hx
    by_cases hd : t.entry.isDirectory = true
    · have hF : (fh.searchList mm root (FSForest.cons t ts)).files
          = (fh.search mm root t).files ++ (fh.searchList mm root ts).files := by
        simp [FileHound.searchList, hd]
      have hL : (fh.searchList mm root (FSForest.cons t ts)).listed
          = (fh.search mm root t).listed ++ (fh.searchList mm root ts).listed := by
        simp [FileHound.searchList, hd]
      rw [hF] at hx
      rw [hL]
      rcases List.mem_append.mp hx with hx | hx
      · have hx2 := search_files_sub_evaluated fh mm root t x hx
        rcases search_evaluated_spec fh mm root t x hx2 with ⟨u, hu, hx3⟩
        exact Or.inr ⟨u, List.mem_append.mpr (Or.inl hu), hx3⟩
      · rcases searchList_files_spec fh mm root ts x hx with hce | ⟨u, hu, hx3⟩
        · exact Or.inl (by
            simpa [FSForest.toList] using List.mem_cons_of_mem t.entry hce)
        · exact Or.inr ⟨u, List.mem_append.mpr (Or.inr hu), hx3⟩
    · have hF : (fh.searchList mm root (FSForest.cons t ts)).files
          = t.entry :: (fh.searchList mm root ts).files := by
        simp [FileHound.searchList, hd]
      have hL : (fh.searchList mm root (FSForest.cons t ts)).listed
          = (fh.searchList mm root ts).listed := by
        simp [FileHound.searchList, hd]
      rw [hF] at hx
      rw [hL]
      rcases List.mem_cons.mp hx with rfl | hx
      · exact Or.inl (by simp [FSForest.toList])
      · rcases searchList_files_spec fh mm root ts x hx with hce | ⟨u, hu, hx3⟩
        · exact Or.inl (by
            simpa [FSForest.toList] using List.mem_cons_of_mem t.entry hce)
        · exact Or.inr ⟨u, hu, hx3⟩

theorem searchList_evaluated_spec (fh : FileHound) (mm : Entry → Bool) (root : Entry) :
    ∀ f : FSForest, ∀ x ∈ (fh.searchList mm root f).evaluated,
      ∃ u ∈ (fh.searchList mm root f).listed, x ∈ u.childEntries
  | .nil => by
    intro x hx
    simp [FileHound.searchList] at hx
  | .cons t ts => by
    intro x hx
    by_cases hd : t.entry.isDirectory = true
    · have hE : (fh.searchList mm root (FSForest.cons t ts)).evaluated
          = (fh.search mm root t).evaluated ++ (fh.searchList mm root ts).evaluated := by
        simp [FileHound.searchList, hd]
      have hL : (fh.searchList mm root (FSForest.cons t ts)).listed
          = (fh.search mm root t).listed ++ (fh.searchList mm root ts).listed := by
        simp [FileHound.searchList, hd]
      rw [hE] at hx
      rw [hL]
      rcases List.mem_append.mp hx with hx | hx
      · rcases search_evaluated_spec fh mm root t x hx with ⟨u, hu, hx2⟩
        exact ⟨u, List.mem_append.mpr (Or.inl hu), hx2⟩
      · rcases searchList_evaluated_spec fh mm root ts x hx with ⟨u, hu, hx2⟩
        exact ⟨u, List.mem_append.mpr (Or.inr hu), hx2⟩
    · have hE : (fh.searchList mm root (FSForest.cons t ts)).evaluated
          = (fh.searchList mm root ts).evaluated := by
        simp [FileHound.searchList, hd]
      have hL : (fh.searchList mm root (FSForest.cons t ts)).listed
          = (fh.searchList mm root ts).listed := by
        simp [FileHound.searchList, hd]
      rw [hE] at hx
      rw [hL]
      exact searchList_evaluated_spec fh mm root ts x hx
end

/-! ### C3 -/

/-- C3: in directories-only mode a root's searchSync result is exactly the
accumulated `trackedPaths` list filtered through the finalized matcher —
it never contains file entries (every tracked entry is a directory), and a
child directory enters the accumulator only if it would not itself be
pruned on the subsequent recursive call. -/
theorem fileHound_directoriesOnly_result (fh : FileHound) (t : FSTree)
    (h : fh.directoriesOnly = true) :
    fh.searchSync t
      = ((fh.search fh.newMatcher t.entry t).tracked).filter fh.newMatcher
    ∧ (∀ x ∈ (fh.search fh.newMatcher t.entry t).tracked,
        x.isDirectory = true ∧ shouldFilterDirectory fh t.entry x = false)
    ∧ (∀ x ∈ fh.searchSync t, x.isDirectory = true) := by
  have h1 : fh.searchSync t
      = ((fh.search fh.newMatcher t.entry t).tracked).filter fh.newMatcher := by
    simp [FileHound.searchSync, h]
  refine ⟨h1, search_tracked_spec fh _ t.entry t, ?_⟩
  intro x hx
  rw [h1] at hx
  exact (search_tracked_spec fh _ t.entry t x (List.mem_of_mem_filter hx)).1

theorem fileHound_directoriesOnly_result_witness :
    ((FileHound.create "/a").directory).searchSync treeA
      = ((((FileHound.create "/a").directory).search
            ((FileHound.create "/a").directory).newMatcher treeA.entry treeA).tracked).filter
          ((FileHound.create "/a").directory).newMatcher
    ∧ ((FileHound.create "/a").directory).searchSync treeA = [entAD] :=
  ⟨(fileHound_directoriesOnly_result _ treeA rfl).1, by decide⟩

/-! ### C7 -/

/-- C7: a directory rejected by the pruning rule yields an empty result
immediately — its contents are never listed (`listed`, `tracked`,
`evaluated` and `files` are all empty); every directory the walk does list
is unpruned; every entry passed to the matcher comes from the listing of
such an unpruned directory; and every contributed result entry was one of
the evaluated candidates.  Entries beneath a pruned directory are therefore
never evaluated and never contribute to any result. -/
theorem fileHound_prune_skips_listing (fh : FileHound) (mm : Entry → Bool)
    (root : Entry) (t : FSTree) :
    (shouldFilterDirectory fh root t.entry = true →
        fh.search mm root t = ⟨[], [], [], []⟩)
    ∧ (∀ u ∈ (fh.search mm root t).listed,
        shouldFilterDirectory fh root u.entry = false)
    ∧ (∀ x ∈ (fh.search mm root t).evaluated,
        ∃ u ∈ (fh.search mm root t).listed, x ∈ u.childEntries)
    ∧ (∀ x ∈ (fh.search mm root t).files, x ∈ (fh.search mm root t).evaluated) :=
  ⟨search_pruned fh mm root t, search_listed_spec fh mm root t,
   search_evaluated_spec fh mm root t, search_files_sub_evaluated fh mm root t⟩

theorem fileHound_prune_skips_listing_witness :
    ((FileHound.create "/a").ignoreHiddenDirectories).search (fun _ => true) entA
        (FSTree.node ⟨"/a/.git", 2, true, true, ""⟩
          (.cons (.node ⟨"/a/.git/x", 3, false, false, ""⟩ .nil) .nil))
      = ⟨[], [], [], []⟩ :=
  (fileHound_prune_skips_listing ((FileHound.create "/a").ignoreHiddenDirectories)
    (fun _ => true) entA _).1 (by decide)

/-! ### C2 -/

theorem atMaxDepth_depth_eq (fh : FileHound) (root dir : Entry)
    (h : dir.depth = root.depth) : atMaxDepth fh root dir = false := by
  unfold atMaxDepth
  cases hm : fh.maxDepth with
  | none => rfl
  | some m =>
    rw [h, decide_eq_false_iff_not]
    omega

theorem searchList_depth_zero (fh : FileHound) (mm : Entry → Bool) (root : Entry)
    (h0 : fh.maxDepth = some 0) :
    ∀ f : FSForest, (∀ u ∈ f.toList, u.entry.depth = root.depth + 1) →
      fh.searchList mm root f
        = ⟨(f.toList.map FSTree.entry).filter (fun e => !e.isDirectory), [], [], []⟩
  | .nil => by intro _; rfl
  | .cons t ts => by
    intro h
    have hdep : t.entry.depth = root.depth + 1 := h t (by simp [FSForest.toList])
    have hts := searchList_depth_zero fh mm root h0 ts
      (fun u hu => h u (by simp [FSForest.toList, hu]))
    by_cases hd : t.entry.isDirectory = true
    · have hp : shouldFilterDirectory fh root t.entry = true := by
        unfold shouldFilterDirectory atMaxDepth
        rw [h0]
        simp
        exact Or.inl (by omega)
      have hpr := search_pruned fh mm root t hp
      simp [FileHound.searchList, hd, hp, hpr, hts, FSForest.toList]
    · simp [FileHound.searchList, hd, hts, FSForest.toList]

/-- C2: the walk prunes a candidate directory exactly when maxDepth is set
and the relative depth `dir.depth - root.depth` (integer subtraction)
exceeds it, or hidden-directory exclusion is enabled and the candidate is
hidden; relative depth 0 (the root itself) is never pruned by the depth
rule; and with maxDepth = 0 a root's search returns exactly the matching
non-directory direct children of the root, listing only the root itself,
tracking nothing and evaluating only the root's own listing (no recursion
into subdirectories). -/
theorem fileHound_prune_rule_and_depth_zero (fh : FileHound) :
    (∀ root dir : Entry,
      shouldFilterDirectory fh root dir = true ↔
        ((∃ n, fh.maxDepth = some n ∧ (n : Int) < (dir.depth : Int) - (root.depth : Int))
          ∨ (fh.ignoreDirs = true ∧ dir.isHidden = true)))
    ∧ (∀ root dir : Entry, dir.depth = root.depth → atMaxDepth fh root dir = false)
    ∧ (∀ (mm : Entry → Bool) (t : FSTree), fh.maxDepth = some 0 →
        (∀ u ∈ t.children.toList, u.entry.depth = t.entry.depth + 1) →
        shouldFilterDirectory fh t.entry t.entry = false →
        fh.search mm t.entry t
          = ⟨(t.childEntries.filter (fun e => !e.isDirectory)).filter mm, [], [t],
              t.childEntries.filter (fun e => !e.isDirectory)⟩) := by
  refine ⟨?_, fun root dir h => atMaxDepth_depth_eq fh root dir h, ?_⟩
  · intro root dir
    unfold shouldFilterDirectory atMaxDepth
    cases hm : fh.maxDepth with
    | none => simp
    | some m => simp [hm]
  · intro mm t h0 hch hroot
    obtain ⟨e, ch⟩ := t
    have hcl := searchList_depth_zero fh mm e h0 ch
      (by simpa [FSTree.children, FSTree.entry] using hch)
    simp only [FSTree.entry] at hroot
    simp [FileHound.search, FSTree.entry, hroot, hcl, FSTree.childEntries, FSTree.children]

theorem fileHound_prune_rule_and_depth_zero_witness :
    ((FileHound.create "/a").depth 0).search (fun _ => true) treeA.entry treeA
      = ⟨(treeA.childEntries.filter (fun e => !e.isDirectory)).filter (fun _ => true),
          [], [treeA], treeA.childEntries.filter (fun e => !e.isDirectory)⟩
    ∧ atMaxDepth ((FileHound.create "/a").depth 0) entA entA = false :=
  ⟨(fileHound_prune_rule_and_depth_zero ((FileHound.create "/a").depth 0)).2.2
      (fun _ => true) treeA rfl (by decide) (by decide),
   (fileHound_prune_rule_and_depth_zero ((FileHound.create "/a").depth 0)).2.1
      entA entA rfl⟩

/-! ### Schedule lemmas -/

/-- The name carried by a `match` notification. -/
def evName : Ev → Option String
  | .matchEv n => some n
  | _ => none

theorem evOf_match_only (fh : FileHound) (o : Except String (List Entry)) :
    ∀ v ∈ evOf fh o, ∃ n, v = Ev.matchEv n := by
  intro v hv
  cases o with
  | error e => simp [evOf] at hv
  | ok files =>
    by_cases hdo : fh.directoriesOnly = true
    · simp [evOf, hdo] at hv
    · simp [evOf, hdo] at hv
      rcases hv with ⟨f, _, rfl⟩
      exact ⟨f.name, rfl⟩

theorem evOf_dirsOnly (fh : FileHound) (hdo : fh.directoriesOnly = true)
    (o : Except String (List Entry)) : evOf fh o = [] := by
  cases o <;> simp [evOf, hdo]

theorem count_evOf_flatten_zero (fh : FileHound)
    (g : Nat → Except String (List Entry)) (l : List Nat) (v : Ev)
    (hv : ∀ n, v ≠ Ev.matchEv n) :
    ((l.map (fun j => evOf fh (g j))).flatten).count v = 0 := by
  rw [List.count_eq_zero]
  intro hmem
  rcases List.mem_flatten.mp hmem with ⟨sub, hsub, hvs⟩
  rcases List.mem_map.mp hsub with ⟨j, _, rfl⟩
  rcases evOf_match_only fh _ v hvs with ⟨n, rfl⟩
  exact hv n rfl

theorem runSchedule_cons_ok (fh : FileHound) (outs : List (Except String (List Entry)))
    (i : Nat) (rest : List Nat) (files : List Entry)
    (hv : outs.getD i (Except.ok []) = Except.ok files) :
    runSchedule fh outs (i :: rest)
      = (evOf fh (Except.ok files) ++ (runSchedule fh outs rest).1,
         (runSchedule fh outs rest).2) := by
  simp only [runSchedule, hv]

theorem runSchedule_cons_error (fh : FileHound) (outs : List (Except String (List Entry)))
    (i : Nat) (rest : List Nat) (e : String)
    (hv : outs.getD i (Except.ok []) = Except.error e) :
    runSchedule fh outs (i :: rest)
      = (Ev.errorEv e :: Ev.endEv ::
          (rest.map (fun j => evOf fh (outs.getD j (Except.ok [])))).flatten, some e) := by
  simp only [runSchedule, hv]

theorem runSchedule_all_ok (fh : FileHound) (outs : List (Except String (List Entry))) :
    ∀ order : List Nat, (∀ j ∈ order, (outs.getD j (Except.ok [])).isOk = true) →
      runSchedule fh outs order
        = ((order.map (fun j => evOf fh (outs.getD j (Except.ok [])))).flatten, none)
  | [] => by intro _; rfl
  | i :: rest => by
    intro h
    have hrec := runSchedule_all_ok fh outs rest (fun j hj => h j (by simp [hj]))
    cases hv : outs.getD i (Except.ok []) with
    | error e =>
      have hi := h i (by simp)
      rw [hv] at hi
      simp [Except.isOk, Except.toBool] at hi
    | ok files =>
      rw [runSchedule_cons_ok fh outs i rest files hv, hrec]
      simp only [List.map_cons, List.flatten_cons]
      rw [hv]

theorem runSchedule_first_error (fh : FileHound)
    (outs : List (Except String (List Entry))) (e : String) (i : Nat)
    (post : List Nat) :
    ∀ pre : List Nat, (∀ j ∈ pre, (outs.getD j (Except.ok [])).isOk = true) →
      outs.getD i (Except.ok []) = Except.error e →
      runSchedule fh outs (pre ++ i :: post)
        = ((pre.map (fun j => evOf fh (outs.getD j (Except.ok [])))).flatten
            ++ Ev.errorEv e :: Ev.endEv ::
              (post.map (fun j => evOf fh (outs.getD j (Except.ok [])))).flatten,
          some e)
  | [] => by
    intro _ hi
    rw [List.nil_append, runSchedule_cons_error fh outs i post e hi]
    simp
  | a :: pre => by
    intro h hi
    have ha := h a (by simp)
    cases hv : outs.getD a (Except.ok []) with
    | error e2 =>
      rw [hv] at ha
      simp [Except.isOk, Except.toBool] at ha
    | ok files =>
      have hrec := runSchedule_first_error fh outs e i post pre
        (fun j hj => h j (by simp [hj])) hi
      rw [List.cons_append, runSchedule_cons_ok fh outs a (pre ++ i :: post) files hv, hrec]
      simp only [List.map_cons, List.flatten_cons]
      rw [hv]
      simp [List.append_assoc]

theorem filterMap_flatten (f : Ev → Option String) :
    ∀ L : List (List Ev), (L.flatten).filterMap f = (L.map (List.filterMap f)).flatten
  | [] => rfl
  | l :: L => by simp [List.filterMap_append, filterMap_flatten f L]

theorem map_getD_range (g : Except String (List Entry) → List String)
    (d : Except String (List Entry)) :
    ∀ l : List (Except String (List Entry)),
      (List.range l.length).map (fun i => g (l.getD i d)) = l.map g
  | [] => rfl
  | x :: xs => by
    rw [List.length_cons, List.range_succ_eq_map, List.map_cons, List.map_map]
    simp only [Function.comp_def, List.getD_cons_zero, List.getD_cons_succ]
    rw [map_getD_range g d xs]
    rfl

theorem filterMap_matchEv_names :
    ∀ files : List Entry,
      ((files.map (fun f => Ev.matchEv f.name)).filterMap evName) = files.map Entry.name
  | [] => rfl
  | f :: fs => by simp [evName, filterMap_matchEv_names fs]

/-! ### C4 -/

def fhTwoRoots : FileHound := (FileHound.create "/c").paths [PathArg.many ["/a", "/b"]]

def fsFailA : String → Except String FSTree :=
  fun p => if p = "/a" then Except.error "boom" else Except.ok treeB

def fsOkAB : String → Except String FSTree :=
  fun p => if p = "/a" then Except.ok treeA else Except.ok treeB

def fhDirsOnly : FileHound := ((FileHound.create "/c").paths [PathArg.many ["/a"]]).directory

/-- C4 counterexample: with roots ["/a", "/b"], the "/a" walk failing first
and the "/b" walk completing only after the failure has settled
`Promise.all`, find rejects with the error and emits `error` then `end` —
but the `match` notification of the still-running "/b" walk (not cancelled)
fires AFTER `end`, so `end` is not the very last observable effect of the
call. -/
theorem fileHound_find_end_not_last_counterexample :
    (fhTwoRoots.find fsFailA [0, 1]).1
      = [Ev.errorEv "boom", Ev.endEv, Ev.matchEv "/b/g.log"]
    ∧ (fhTwoRoots.find fsFailA [0, 1]).1.getLast? = some (Ev.matchEv "/b/g.log")
    ∧ (fhTwoRoots.find fsFailA [0, 1]).2 = Except.error "boom" := by
  decide

/-- C4 (amended): if a per-root walk fails, find rejects with the first
error to settle; the error notification fires immediately before the end
notification, each fires exactly once, and every other notification of the
call is a match notification — those from sibling walks still pending when
the failure settles may fire after end.  On success the end notification
fires exactly once, as the last notification, and find fulfils with the
flattened result. -/
theorem fileHound_find_error_protocol (fh : FileHound)
    (fs : String → Except String FSTree) :
    (∀ (pre post : List Nat) (i : Nat) (e : String),
      (∀ j ∈ pre, ((fh.findOutcomes fs).getD j (Except.ok [])).isOk = true) →
      (fh.findOutcomes fs).getD i (Except.ok []) = Except.error e →
      ((fh.find fs (pre ++ i :: post)).2 = Except.error e
        ∧ (fh.find fs (pre ++ i :: post)).1
            = (pre.map (fun j => evOf fh ((fh.findOutcomes fs).getD j (Except.ok [])))).flatten
              ++ Ev.errorEv e :: Ev.endEv ::
                (post.map (fun j => evOf fh ((fh.findOutcomes fs).getD j (Except.ok [])))).flatten
        ∧ (fh.find fs (pre ++ i :: post)).1.count Ev.endEv = 1
        ∧ (fh.find fs (pre ++ i :: post)).1.count (Ev.errorEv e) = 1))
    ∧ (∀ order : List Nat,
      (∀ j ∈ order, ((fh.findOutcomes fs).getD j (Except.ok [])).isOk = true) →
      ((fh.find fs order).1.getLast? = some Ev.endEv
        ∧ (fh.find fs order).1.count Ev.endEv = 1
        ∧ (fh.find fs order).2
            = Except.ok ((((fh.findOutcomes fs).map (fun o => o.toOption.getD [])).flatten).map
                Entry.name))) := by
  constructor
  · intro pre post i e hpre hi
    have hrs := runSchedule_first_error fh (fh.findOutcomes fs) e i post pre hpre hi
    have hfind : fh.find fs (pre ++ i :: post)
        = ((pre.map (fun j => evOf fh ((fh.findOutcomes fs).getD j (Except.ok [])))).flatten
            ++ Ev.errorEv e :: Ev.endEv ::
              (post.map (fun j => evOf fh ((fh.findOutcomes fs).getD j (Except.ok [])))).flatten,
          Except.error e) := by
      simp only [FileHound.find]
      rw [hrs]
    have hApre : ((pre.map (fun j => evOf fh ((fh.findOutcomes fs).getD j (Except.ok [])))).flatten).count
        Ev.endEv = 0 :=
      count_evOf_flatten_zero fh _ pre Ev.endEv (fun n h => Ev.noConfusion h)
    have hApost : ((post.map (fun j => evOf fh ((fh.findOutcomes fs).getD j (Except.ok [])))).flatten).count
        Ev.endEv = 0 :=
      count_evOf_flatten_zero fh _ post Ev.endEv (fun n h => Ev.noConfusion h)
    have hBpre : ((pre.map (fun j => evOf fh ((fh.findOutcomes fs).getD j (Except.ok [])))).flatten).count
        (Ev.errorEv e) = 0 :=
      count_evOf_flatten_zero fh _ pre (Ev.errorEv e) (fun n h => Ev.noConfusion h)
    have hBpost : ((post.map (fun j => evOf fh ((fh.findOutcomes fs).getD j (Except.ok [])))).flatten).count
        (Ev.errorEv e) = 0 :=
      count_evOf_flatten_zero fh _ post (Ev.errorEv e) (fun n h => Ev.noConfusion h)
    have hev : (fh.find fs (pre ++ i :: post)).1
        = (pre.map (fun j => evOf fh ((fh.findOutcomes fs).getD j (Except.ok [])))).flatten
          ++ Ev.errorEv e :: Ev.endEv ::
            (post.map (fun j => evOf fh ((fh.findOutcomes fs).getD j (Except.ok [])))).flatten := by
      rw [hfind]
    refine ⟨by rw [hfind], hev, ?_, ?_⟩
    · rw [hev, List.count_append, hApre, List.count_cons, List.count_cons, hApost]
      rfl
    · rw [hev, List.count_append, hBpre, List.count_cons, List.count_cons, hBpost]
      have hb1 : (Ev.endEv == Ev.errorEv e) = false := rfl
      have hb2 : (Ev.errorEv e == Ev.errorEv e) = true := by simp
      rw [hb1, hb2]
      rfl
  · intro order hok
    have hrs := runSchedule_all_ok fh (fh.findOutcomes fs) order hok
    have hfind : fh.find fs order
        = ((order.map (fun j => evOf fh ((fh.findOutcomes fs).getD j (Except.ok [])))).flatten
            ++ [Ev.endEv],
          Except.ok ((((fh.findOutcomes fs).map (fun o => o.toOption.getD [])).flatten).map
            Entry.name)) := by
      simp only [FileHound.find]
      rw [hrs]
    have hA : ((order.map (fun j => evOf fh ((fh.findOutcomes fs).getD j (Except.ok [])))).flatten).count
        Ev.endEv = 0 :=
      count_evOf_flatten_zero fh _ order Ev.endEv (fun n h => Ev.noConfusion h)
    have hev : (fh.find fs order).1
        = (order.map (fun j => evOf fh ((fh.findOutcomes fs).getD j (Except.ok [])))).flatten
          ++ [Ev.endEv] := by
      rw [hfind]
    refine ⟨?_, ?_, by rw [hfind]⟩
    · rw [hev]
      simp [List.getLast?_append]
    · rw [hev, List.count_append, hA]
      rfl

theorem fileHound_find_error_protocol_witness :
    (fhTwoRoots.find fsFailA ([] ++ 0 :: [1])).2 = Except.error "boom"
    ∧ (fhTwoRoots.find fsFailA ([] ++ 0 :: [1])).1.count Ev.endEv = 1
    ∧ (fhTwoRoots.find fsOkAB [1, 0]).1.getLast? = some Ev.endEv :=
  ⟨((fileHound_find_error_protocol fhTwoRoots fsFailA).1 [] [1] 0 "boom"
      (by simp) (by decide)).1,
   ((fileHound_find_error_protocol fhTwoRoots fsFailA).1 [] [1] 0 "boom"
      (by simp) (by decide)).2.2.1,
   ((fileHound_find_error_protocol fhTwoRoots fsOkAB).2 [1, 0] (by decide)).1⟩

/-! ### C6 -/

/-- C6 counterexample.  First run: two successful roots completing in
reverse order — the final result list preserves root-declaration order, but
the match notifications were emitted in completion order ("/b" walk first),
so matches are NOT emitted in final flattened order.  Second run:
directories-only mode — the result has one entry but NO match notification
fires at all (searchAsync returns the filtered tracked directories before
the emission loop). -/
theorem fileHound_match_emission_counterexample :
    ((fhTwoRoots.find fsOkAB [1, 0]).2
        = Except.ok ["/a/f.txt", "/a/d/g.txt", "/b/g.log"]
      ∧ (fhTwoRoots.find fsOkAB [1, 0]).1.filterMap evName
          = ["/b/g.log", "/a/f.txt", "/a/d/g.txt"]
      ∧ (fhTwoRoots.find fsOkAB [1, 0]).1.filterMap evName
          ≠ ["/a/f.txt", "/a/d/g.txt", "/b/g.log"])
    ∧ ((fhDirsOnly.find (fun _ => Except.ok treeA) [0]).2 = Except.ok ["/a/d"]
      ∧ (fhDirsOnly.find (fun _ => Except.ok treeA) [0]).1 = [Ev.endEv]) := by
  decide

/-- C6 (amended): for every successful find call the fulfilled result is
the concatenation of per-root result lists in root-declaration order,
regardless of completion order; the notifications are the per-root match
groups in completion order followed by a final end.  When directoriesOnly
is off, exactly one match notification is emitted per resulting entry (the
emitted names are a permutation of the result), grouped by root in
completion order — not necessarily in final flattened order; when
directoriesOnly is on, no match notifications are emitted at all. -/
theorem fileHound_find_success_order (fh : FileHound)
    (fs : String → Except String FSTree) (order : List Nat)
    (hok : ∀ j ∈ order, ((fh.findOutcomes fs).getD j (Except.ok [])).isOk = true)
    (hperm : order.Perm (List.range (fh.findOutcomes fs).length)) :
    (fh.find fs order).2
        = Except.ok ((((fh.findOutcomes fs).map (fun o => o.toOption.getD [])).flatten).map
            Entry.name)
    ∧ (fh.find fs order).1
        = (order.map (fun j => evOf fh ((fh.findOutcomes fs).getD j (Except.ok [])))).flatten
          ++ [Ev.endEv]
    ∧ (fh.directoriesOnly = false →
        ((fh.find fs order).1.filterMap evName).Perm
          ((((fh.findOutcomes fs).map (fun o => o.toOption.getD [])).flatten).map Entry.name))
    ∧ (fh.directoriesOnly = true → (fh.find fs order).1 = [Ev.endEv]) := by
  have hrs := runSchedule_all_ok fh (fh.findOutcomes fs) order hok
  have hfind : fh.find fs order
      = ((order.map (fun j => evOf fh ((fh.findOutcomes fs).getD j (Except.ok [])))).flatten
          ++ [Ev.endEv],
        Except.ok ((((fh.findOutcomes fs).map (fun o => o.toOption.getD [])).flatten).map
          Entry.name)) := by
    simp only [FileHound.find]
    rw [hrs]
  refine ⟨by rw [hfind], by rw [hfind], ?_, ?_⟩
  · intro hdo
    rw [hfind]
    rw [List.filterMap_append]
    have hend : List.filterMap evName [Ev.endEv] = [] := rfl
    rw [hend, List.append_nil]
    rw [filterMap_flatten, List.map_map]
    have hcongr : (order.map
          (List.filterMap evName ∘ (fun j => evOf fh ((fh.findOutcomes fs).getD j (Except.ok [])))))
        = order.map (fun j =>
            (((fh.findOutcomes fs).getD j (Except.ok [])).toOption.getD []).map Entry.name) := by
      apply List.map_congr_left
      intro j _
      simp only [Function.comp_def]
      cases hv : (fh.findOutcomes fs).getD j (Except.ok []) with
      | error e => simp [evOf, Except.toOption]
      | ok files =>
        simp only [evOf, hdo, if_false, Bool.false_eq_true, Except.toOption, Option.getD_some]
        exact filterMap_matchEv_names files
    rw [hcongr]
    have hperm2 := (hperm.map (fun j =>
        (((fh.findOutcomes fs).getD j (Except.ok [])).toOption.getD []).map Entry.name)).flatten
    rw [map_getD_range (fun o => (o.toOption.getD []).map Entry.name) (Except.ok [])
        (fh.findOutcomes fs)] at hperm2
    have hres : ((((fh.findOutcomes fs).map (fun o => o.toOption.getD [])).flatten).map Entry.name)
        = ((fh.findOutcomes fs).map (fun o => (o.toOption.getD []).map Entry.name)).flatten := by
      rw [List.map_flatten, List.map_map]
      rfl
    rw [hres]
    exact hperm2
  · intro hdo
    rw [hfind]
    have hcongr : (order.map (fun j => evOf fh ((fh.findOutcomes fs).getD j (Except.ok []))))
        = order.map (fun _ => ([] : List Ev)) := by
      apply List.map_congr_left
      intro j _
      exact evOf_dirsOnly fh hdo _
    rw [hcongr]
    have hnil : (order.map (fun _ => ([] : List Ev))).flatten = [] := by
      rw [List.flatten_eq_nil_iff]
      intro l hl
      rcases List.mem_map.mp hl with ⟨_, _, rfl⟩
      rfl
    rw [hnil, List.nil_append]

theorem fileHound_find_success_order_witness :
    (fhTwoRoots.find fsOkAB [1, 0]).2
      = Except.ok ((((fhTwoRoots.findOutcomes fsOkAB).map
          (fun o => o.toOption.getD [])).flatten).map Entry.name) :=
  (fileHound_find_success_order fhTwoRoots fsOkAB [1, 0] (by decide) (by decide)).1
